import Mathlib

/-!
Verification of the Excel Data Encryptor core pipeline: column
classification (`findTargetColumns`), value normalization and hashing
(`hashValue`), the chunked encryption pass of `App.handleEncrypt`, and the
download-filename generator (`generateDownloadFilename`).

JavaScript strings are modelled through Lean `String` (a wrapper around
`List Char`), with the JS `trim` / `toLowerCase` primitives embedded
explicitly as executable functions (`jsTrim`, `jsToLower`).  JS numbers in
cells are modelled as integers: none of the verified properties depend on
float formatting.  32-bit machine arithmetic inside SHA-256 is modelled on
`Nat` with explicit reduction modulo 2 ^ 32.
-/

/-! ## JS string primitives -/

/-- Whitespace recognized by the JS `trim` used in the services (space,
tab, line feed, carriage return, vertical tab, form feed, NBSP, BOM). -/
def jsWhitespace (c : Char) : Bool :=
  c == ' ' || c == '\t' || c == '\n' || c == '\r' ||
  c == Char.ofNat 11 || c == Char.ofNat 12 || c == Char.ofNat 160 ||
  c == Char.ofNat 0xFEFF

/-- `String.prototype.trim`: drop whitespace from both ends. -/
def jsTrim (s : String) : String :=
  ⟨List.rdropWhile jsWhitespace (s.data.dropWhile jsWhitespace)⟩

/-- ASCII case folding of a single character, the behavior of
`toLowerCase` on the data handled by the services (Unicode folding is
left unspecified by the original behavior). -/
def jsCharToLower (c : Char) : Char :=
  if 65 ≤ c.toNat ∧ c.toNat ≤ 90 then Char.ofNat (c.toNat + 32) else c

/-- `String.prototype.toLowerCase` (ASCII model). -/
def jsToLower (s : String) : String :=
  ⟨s.data.map jsCharToLower⟩

/-! ## SHA-256 (FIPS 180-4), the digest computed by
`crypto.subtle.digest('SHA-256', _)` in `encryptionService.ts`.
Words are naturals kept below 2 ^ 32 by explicit reduction. -/

/-- Truncation to a 32-bit word. -/
def w32 (x : Nat) : Nat := x % 2 ^ 32

/-- Rotation of the word `x` to the right by `n` bit positions. -/
def rotr32 (n x : Nat) : Nat := x / 2 ^ n + x % 2 ^ n * 2 ^ (32 - n)

/-- Logical right shift. -/
def shr32 (n x : Nat) : Nat := x / 2 ^ n

def smallSigma0 (x : Nat) : Nat := rotr32 7 x ^^^ rotr32 18 x ^^^ shr32 3 x

def smallSigma1 (x : Nat) : Nat := rotr32 17 x ^^^ rotr32 19 x ^^^ shr32 10 x

def bigSigma0 (x : Nat) : Nat := rotr32 2 x ^^^ rotr32 13 x ^^^ rotr32 22 x

def bigSigma1 (x : Nat) : Nat := rotr32 6 x ^^^ rotr32 11 x ^^^ rotr32 25 x

def chFn (e f g : Nat) : Nat := (e &&& f) ^^^ ((e ^^^ 0xffffffff) &&& g)

def majFn (a b c : Nat) : Nat := (a &&& b) ^^^ (a &&& c) ^^^ (b &&& c)

/-- The 64 round constants of FIPS 180-4 (fractional parts of the cube
roots of the first 64 primes), written in decimal. -/
def sha256K : List Nat :=
  [1116352408, 1899447441, 3049323471, 3921009573, 961987163,
   1508970993, 2453635748, 2870763221, 3624381080, 310598401,
   607225278, 1426881987, 1925078388, 2162078206, 2614888103,
   3248222580, 3835390401, 4022224774, 264347078, 604807628,
   770255983, 1249150122, 1555081692, 1996064986, 2554220882,
   2821834349, 2952996808, 3210313671, 3336571891, 3584528711,
   113926993, 338241895, 666307205, 773529912, 1294757372,
   1396182291, 1695183700, 1986661051, 2177026350, 2456956037,
   2730485921, 2820302411, 3259730800, 3345764771, 3516065817,
   3600352804, 4094571909, 275423344, 430227734, 506948616,
   659060556, 883997877, 958139571, 1322822218, 1537002063,
   1747873779, 1955562222, 2024104815, 2227730452, 2361852424,
   2428436474, 2756734187, 3204031479, 3329325298]

/-- Working state of the compression function (eight 32-bit words). -/
structure Sha256State where
  a : Nat
  b : Nat
  c : Nat
  d : Nat
  e : Nat
  f : Nat
  g : Nat
  h : Nat
deriving DecidableEq

/-- The initial hash state (fractional parts of the square roots of the
first 8 primes), written in decimal. -/
def sha256Init : Sha256State :=
  ⟨1779033703, 3144134277, 1013904242, 2773480762,
   1359893119, 2600822924, 528734635, 1541459225⟩

/-- Group a block of bytes into big-endian 32-bit words. -/
def bytesToWords : List Nat → List Nat
  | b0 :: b1 :: b2 :: b3 :: rest =>
      (b0 * 2 ^ 24 + b1 * 2 ^ 16 + b2 * 2 ^ 8 + b3) :: bytesToWords rest
  | _ => []

/-- Extend the 16 message words to 64.  The accumulator is kept in
reverse order (head is the most recent word). -/
def extendSchedule : Nat → List Nat → List Nat
  | 0, acc => acc
  | n + 1, acc =>
      extendSchedule n
        (w32 (smallSigma1 (acc.getD 1 0) + acc.getD 6 0 +
              smallSigma0 (acc.getD 14 0) + acc.getD 15 0) :: acc)

/-- Full 64-word message schedule of one block. -/
def messageSchedule (block : List Nat) : List Nat :=
  (extendSchedule 48 (bytesToWords block).reverse).reverse

/-- One round of the compression function. -/
def sha256Round (st : Sha256State) (kw : Nat × Nat) : Sha256State :=
  let t1 := w32 (st.h + bigSigma1 st.e + chFn st.e st.f st.g + kw.1 + kw.2)
  let t2 := w32 (bigSigma0 st.a + majFn st.a st.b st.c)
  ⟨w32 (t1 + t2), st.a, st.b, st.c, w32 (st.d + t1), st.e, st.f, st.g⟩

/-- Process one 64-byte block. -/
def sha256Block (hv : Sha256State) (block : List Nat) : Sha256State :=
  let st := (sha256K.zip (messageSchedule block)).foldl sha256Round hv
  ⟨w32 (hv.a + st.a), w32 (hv.b + st.b), w32 (hv.c + st.c), w32 (hv.d + st.d),
   w32 (hv.e + st.e), w32 (hv.f + st.f), w32 (hv.g + st.g), w32 (hv.h + st.h)⟩

/-- Big-endian bytes of the 64-bit message bit length. -/
def lengthBytes (bitLen : Nat) : List Nat :=
  [bitLen / 2 ^ 56 % 256, bitLen / 2 ^ 48 % 256, bitLen / 2 ^ 40 % 256,
   bitLen / 2 ^ 32 % 256, bitLen / 2 ^ 24 % 256, bitLen / 2 ^ 16 % 256,
   bitLen / 2 ^ 8 % 256, bitLen % 256]

/-- SHA-256 padding: append 0x80, zeros to 56 mod 64, then the bit length. -/
def sha256Pad (msg : List Nat) : List Nat :=
  msg ++ [0x80] ++ List.replicate ((119 - msg.length % 64) % 64) 0 ++
    lengthBytes (msg.length * 8)

/-- Split a byte list into 64-byte blocks (fuel-indexed for structural
recursion; the fuel is always at least the list length). -/
def toBlocksAux : Nat → List Nat → List (List Nat)
  | 0, _ => []
  | _, [] => []
  | fuel + 1, l@(_ :: _) => l.take 64 :: toBlocksAux fuel (l.drop 64)

def toBlocks (l : List Nat) : List (List Nat) := toBlocksAux l.length l

/-- Final hash state over a whole (unpadded) message. -/
def sha256Words (msg : List Nat) : Sha256State :=
  (toBlocks (sha256Pad msg)).foldl sha256Block sha256Init

/-- Big-endian bytes of a 32-bit word. -/
def wordBytes (x : Nat) : List Nat :=
  [x / 2 ^ 24 % 256, x / 2 ^ 16 % 256, x / 2 ^ 8 % 256, x % 256]

/-- The 32-byte SHA-256 digest of a byte message. -/
def sha256Bytes (msg : List Nat) : List Nat :=
  let hv := sha256Words msg
  wordBytes hv.a ++ wordBytes hv.b ++ wordBytes hv.c ++ wordBytes hv.d ++
  wordBytes hv.e ++ wordBytes hv.f ++ wordBytes hv.g ++ wordBytes hv.h

/-- UTF-8 encoding of one scalar value (`TextEncoder`). -/
def utf8EncodeChar (c : Char) : List Nat :=
  let n := c.toNat
  if n < 0x80 then [n]
  else if n < 0x800 then [0xC0 + n / 64, 0x80 + n % 64]
  else if n < 0x10000 then
    [0xE0 + n / 4096, 0x80 + n / 64 % 64, 0x80 + n % 64]
  else
    [0xF0 + n / 0x40000, 0x80 + n / 4096 % 64, 0x80 + n / 64 % 64,
     0x80 + n % 64]

/-- UTF-8 byte encoding of a string (`TextEncoder().encode`). -/
def utf8Bytes (l : List Char) : List Nat :=
  (l.map utf8EncodeChar).flatten

/-- The sixteen lowercase hexadecimal digit characters. -/
def hexChars : List Char := "0123456789abcdef".data

/-- Hexadecimal digit for a value below 16. -/
def hexDigit (n : Nat) : Char := hexChars.getD n '0'

/-- Two-character lowercase hex rendering of one byte
(`b.toString(16).padStart(2, '0')`). -/
def byteHex (b : Nat) : List Char := [hexDigit (b / 16), hexDigit (b % 16)]

/-- Lowercase hexadecimal encoding of a byte list. -/
def bytesToHex (bs : List Nat) : String := ⟨(bs.map byteHex).flatten⟩

/-! ## encryptionService.ts -/

/-- `hashValue` from `src/services/encryptionService.ts`: trim and
lowercase the value; return `none` if the result is empty, otherwise the
lowercase hex SHA-256 digest of its UTF-8 encoding. -/
def hashValue (value : String) : Option String :=
  let normalized := jsToLower (jsTrim value)
  if normalized = "" then none
  else some (bytesToHex (sha256Bytes (utf8Bytes normalized.data)))

/-! ## columnMatcher.ts -/

inductive TargetColumnType where
  | FirstName
  | LastName
  | Mobile
  | Email
  | Phone
deriving DecidableEq

/-- A character removed by `normalizeColumnName`'s `replace(/[\s_-]+/g, '')`. -/
def sepChar (c : Char) : Bool := jsWhitespace c || c == '_' || c == '-'

/-- `normalizeColumnName`: lowercase, strip whitespace/underscores/dashes,
then trim. -/
def normalizeColumnName (name : String) : String :=
  jsTrim ⟨(jsToLower name).data.filter (fun c => !sepChar c)⟩

/-- The alias table `targetPatterns` of `findTargetColumns`, in source
order. -/
def targetPatterns : List (String × TargetColumnType) :=
  [("firstname", .FirstName), ("fname", .FirstName),
   ("lastname", .LastName), ("lname", .LastName),
   ("email", .Email), ("emailaddress", .Email), ("e-mail", .Email),
   ("mobile", .Mobile), ("mobilenumber", .Mobile),
   ("phone", .Phone), ("phonenumber", .Phone)]

/-- The property names of `Object.prototype` (ECMA-262 §20.2.4): reading
any of them through an object literal yields a non-undefined inherited
value, because bracket lookup on a plain object traverses the prototype
chain. -/
def objectProtoMemberNames : List String :=
  ["constructor", "hasOwnProperty", "isPrototypeOf", "propertyIsEnumerable",
   "toLocaleString", "toString", "valueOf", "__defineGetter__",
   "__defineSetter__", "__lookupGetter__", "__lookupSetter__", "__proto__"]

/-- A runtime value read from the `targetPatterns` object literal: one of
its own `TargetColumnType` entries, or a member inherited from
`Object.prototype` (a function or object, outside the declared
`TargetColumnType` annotation). -/
inductive JsPropValue where
  | target (t : TargetColumnType)
  | protoMember (name : String)
deriving DecidableEq

/-- The bracket lookup `targetPatterns[key]`: an own property of the
literal when `key` is one of the eleven alias keys, otherwise the
inherited `Object.prototype` member of that name when one exists,
otherwise undefined (`none`). -/
def getTargetPattern (key : String) : Option JsPropValue :=
  match List.lookup key targetPatterns with
  | some t => some (.target t)
  | none =>
      if key ∈ objectProtoMemberNames then some (.protoMember key) else none

structure ColumnMapping where
  originalName : String
  normalizedName : String
  isTarget : Bool
  targetType : Option JsPropValue
  columnIndex : Nat
deriving DecidableEq

/-- `findTargetColumns` from `src/services/columnMatcher.ts`:
`isTarget` is `targetType !== undefined`, where `targetType` is the
prototype-chain-traversing bracket lookup `targetPatterns[normalized]`. -/
def findTargetColumns (headers : List String) : List ColumnMapping :=
  headers.enum.map (fun p =>
    let normalized := normalizeColumnName p.2
    let targetType := getTargetPattern normalized
    ⟨p.2, normalized, targetType.isSome, targetType, p.1⟩)

/-- `hasTargetColumns` from `src/services/columnMatcher.ts`. -/
def hasTargetColumns (headers : List String) : Bool :=
  (findTargetColumns headers).any (·.isTarget)

/-! ## fileGenerator.ts -/

/-- Index of the last `'.'` in a character list (`lastIndexOf('.')`),
`none` when absent. -/
def lastDotIdx : List Char → Option Nat
  | [] => none
  | c :: cs =>
    match lastDotIdx cs with
    | some i => some (i + 1)
    | none => if c = '.' then some 0 else none

/-- `String(x).padStart(2, '0')` for naturals. -/
def pad2 (n : Nat) : String := if n < 10 then "0" ++ toString n else toString n

/-- The `YYYY-MM-DD` date string built inside `generateDownloadFilename`. -/
def fmtDate (year month day : Nat) : String :=
  toString year ++ "-" ++ pad2 month ++ "-" ++ pad2 day

/-- `generateDownloadFilename` from `src/services/fileGenerator.ts`, with
the caller-supplied date made explicit. -/
def generateDownloadFilename (originalFilename : String)
    (year month day : Nat) : String :=
  let dateStr := fmtDate year month day
  match lastDotIdx originalFilename.data with
  | none => originalFilename ++ "_" ++ dateStr ++ "_encrypted"
  | some i =>
      (⟨originalFilename.data.take i⟩ : String) ++ "_" ++ dateStr ++
        "_encrypted" ++ (⟨originalFilename.data.drop i⟩ : String)

/-! ## App.tsx: the encryption pass of `handleEncrypt` -/

/-- A parsed cell (`CellValue` of `file.types.ts`): the tagged union of
strings, numbers, booleans, `null` and `undefined` produced by the Excel
and CSV parsers.  Numbers are modelled as integers. -/
inductive CellValue where
  | str (s : String)
  | num (n : Int)
  | boolean (b : Bool)
  | null
  | undef
deriving DecidableEq

/-- JS `String(x)` on a cell value. -/
def cellToString : CellValue → String
  | .str s => s
  | .num n => toString n
  | .boolean b => cond b "true" "false"
  | .null => "null"
  | CellValue.undef => "undefined"

/-- The cell stored by `row[mapping.columnIndex] = hash`: `hashValue`
returns `string | null` and the result is assigned unconditionally. -/
def hashResultCell : Option String → CellValue
  | some h => .str h
  | none => .null

/-- `Math.round((processed / total) * 100)` as an exact rational rounding
(round half up); float rounding error is not modelled. -/
def roundPct (processed total : Nat) : Nat :=
  (200 * processed + total) / (2 * total)

/-- Mutable locals of the loop in `handleEncrypt`: `encryptedCount`,
`processedCells`, and the sequence of values passed to `setProgress`
inside the loop. -/
structure LoopState where
  enc : Nat
  processed : Nat
  progress : List Nat
deriving DecidableEq

/-- The body of `for (const mapping of columnMappings)` for one mapping:
when the mapping is a target, read the cell, overwrite it with the hash
result unless it is `undefined`, `null` or `''`, and record progress. -/
def encryptCell (total : Nat) (m : ColumnMapping) (row : List CellValue)
    (st : LoopState) : List CellValue × LoopState :=
  if m.isTarget then
    let cellValue := row.getD m.columnIndex CellValue.undef
    let rowEnc :=
      if cellValue ≠ CellValue.undef ∧ cellValue ≠ .null ∧ cellValue ≠ .str "" then
        (row.set m.columnIndex (hashResultCell (hashValue (cellToString cellValue))),
         st.enc + 1)
      else (row, st.enc)
    ⟨rowEnc.1,
     ⟨rowEnc.2, st.processed + 1,
      st.progress ++ [roundPct (st.processed + 1) total]⟩⟩
  else (row, st)

/-- Process one row against every column mapping, in mapping order. -/
def processRow (total : Nat) (mappings : List ColumnMapping)
    (row : List CellValue) (st : LoopState) : List CellValue × LoopState :=
  match mappings with
  | [] => (row, st)
  | m :: ms =>
      let step := encryptCell total m row st
      processRow total ms step.1 step.2

/-- Process rows sequentially in top-to-bottom order. -/
def processRows (total : Nat) (mappings : List ColumnMapping)
    (rows : List (List CellValue)) (st : LoopState) :
    List (List CellValue) × LoopState :=
  match rows with
  | [] => ([], st)
  | row :: rest =>
      let step := processRow total mappings row st
      let next := processRows total mappings rest step.2
      (step.1 :: next.1, next.2)

/-- The chunked loop `for (let i = 0; i < n; i += chunkSize)`: the chunk
size is `k + 1` (the source uses the literal 100) and the fuel bounds the
number of chunks; it is always at least the number of rows. -/
def processChunkedAux (k total : Nat) (mappings : List ColumnMapping) :
    Nat → List (List CellValue) → LoopState →
    List (List CellValue) × LoopState
  | _, [], st => ([], st)
  | 0, rows, st => (rows, st)
  | fuel + 1, row :: rest, st =>
      let chunk := processRows total mappings ((row :: rest).take (k + 1)) st
      let next :=
        processChunkedAux k total mappings fuel ((row :: rest).drop (k + 1))
          chunk.2
      (chunk.1 ++ next.1, next.2)

/-- Chunked traversal of all rows with chunk size `k + 1`. -/
def processChunked (k total : Nat) (mappings : List ColumnMapping)
    (rows : List (List CellValue)) (st : LoopState) :
    List (List CellValue) × LoopState :=
  processChunkedAux k total mappings rows.length rows st

/-- The statistics recorded by `setStats` on success (wall-clock duration
is not modelled). -/
structure RunStats where
  totalRows : Nat
  encryptedCells : Nat
deriving DecidableEq

/-- Caller-visible outcome of one `handleEncrypt` run. -/
structure RunResult where
  outRows : List (List CellValue)
  progress : List Nat
  downloaded : Bool
  stats : Option RunStats
  errored : Bool
deriving DecidableEq

/-- `handleEncrypt` with an explicit chunk size `k + 1`.  `genOk` models
whether the post-loop generation/serialization/download steps succeed or
throw; the loop's in-place writes are visible in `outRows` either way
because `encryptedRows` shares its row arrays with `parsedData.rows`. -/
def handleEncryptChunked (k : Nat) (rows : List (List CellValue))
    (mappings : List ColumnMapping) (genOk : Bool) : RunResult :=
  let total := rows.length * (mappings.filter (·.isTarget)).length
  let run := processChunked k total mappings rows ⟨0, 0, []⟩
  if genOk then
    ⟨run.1, 0 :: run.2.progress ++ [100], true,
     some ⟨rows.length, run.2.enc⟩, false⟩
  else
    ⟨run.1, 0 :: run.2.progress, false, none, true⟩

/-- `handleEncrypt` from `src/App.tsx` (chunk size 100). -/
def handleEncrypt (rows : List (List CellValue))
    (mappings : List ColumnMapping) (genOk : Bool) : RunResult :=
  handleEncryptChunked 99 rows mappings genOk

/-- Reference-level model of the run: `parsedData.rows` is a list of
references into a store of row arrays, `[...parsedData.rows]` copies only
the references, and each write mutates the store.  Returns the final
store. -/
def processRefs (total : Nat) (mappings : List ColumnMapping) :
    List Nat → List (List CellValue) → LoopState →
    List (List CellValue) × LoopState
  | [], store, st => (store, st)
  | i :: rest, store, st =>
      let step := processRow total mappings (store.getD i []) st
      processRefs total mappings rest (store.set i step.1) step.2

/-- Cell at row `j`, column `col` of a table. -/
def cellAt (rows : List (List CellValue)) (j col : Nat) : CellValue :=
  (rows.getD j []).getD col CellValue.undef

/-! ## Helper lemmas -/

/-- A lookup in an association list succeeds exactly when the key occurs. -/
theorem lookup_isSome_iff (l : List (String × TargetColumnType)) (s : String) :
    (List.lookup s l).isSome = true ↔ s ∈ l.map Prod.fst := by
  induction l with
  | nil => simp [List.lookup]
  | cons p rest ih =>
    obtain ⟨k, v⟩ := p
    by_cases h : s = k
    · subst h; simp [List.lookup]
    · simp only [List.lookup, beq_false_of_ne h, List.map_cons, List.mem_cons]
      simp [h, ih]

/-- The eleven alias strings named by the specification (spec side). -/
def specAliases : List String :=
  ["firstname", "fname", "lastname", "lname", "email", "emailaddress",
   "e-mail", "mobile", "mobilenumber", "phone", "phonenumber"]

theorem specAliases_eq_keys : specAliases = targetPatterns.map Prod.fst := by
  decide

theorem lastDotIdx_eq_none {l : List Char} (h : '.' ∉ l) :
    lastDotIdx l = none := by
  induction l with
  | nil => rfl
  | cons c cs ih =>
    have h1 : c ≠ '.' := fun hc => h (hc ▸ List.mem_cons_self c cs)
    have h2 : '.' ∉ cs := fun hc => h (List.mem_cons_of_mem c hc)
    simp [lastDotIdx, ih h2, h1]

theorem lastDotIdx_append (pre post : List Char) (h : '.' ∉ post) :
    lastDotIdx (pre ++ '.' :: post) = some pre.length := by
  induction pre with
  | nil => simp [lastDotIdx, lastDotIdx_eq_none h]
  | cons c cs ih => simp [lastDotIdx, ih]

/-! ## Claim C2 -/

/-- C2: `hashValue` depends only on the trim-and-lowercase normalization
of its input, so it is invariant under leading/trailing whitespace and
letter case; it satisfies the contract
`hashValue "JOHN" = hashValue "john" = hashValue "  John  "` and maps
every string that is empty after trimming (in particular `""` and
`"   "`) to null. -/
theorem hashValue_normalization_invariance :
    (∀ s t : String, jsToLower (jsTrim s) = jsToLower (jsTrim t) →
      hashValue s = hashValue t) ∧
    hashValue "JOHN" = hashValue "john" ∧
    hashValue "john" = hashValue "  John  " ∧
    hashValue "" = none ∧ hashValue "   " = none ∧
    (∀ s : String, jsTrim s = "" → hashValue s = none) := by
  refine ⟨?_, rfl, rfl, by decide, by decide, ?_⟩
  · intro s t h
    simp only [hashValue, h]
  · intro s h
    simp only [hashValue, h]
    rfl

/-- Witness for C2 at a concrete input. -/
theorem hashValue_normalization_invariance_witness :
    hashValue "A" = hashValue "a" :=
  hashValue_normalization_invariance.1 "A" "a" (by decide)

/-! ## Claim C3 -/

theorem getTargetPattern_isSome_iff (s : String) :
    (getTargetPattern s).isSome = true ↔
      s ∈ targetPatterns.map Prod.fst ∨ s ∈ objectProtoMemberNames := by
  unfold getTargetPattern
  cases hl : List.lookup s targetPatterns with
  | some t =>
    simp only [Option.isSome_some, true_iff]
    left
    exact (lookup_isSome_iff targetPatterns s).mp (by rw [hl]; rfl)
  | none =>
    by_cases hp : s ∈ objectProtoMemberNames
    · simp [hp]
    · simp only [if_neg hp, Option.isSome_none]
      constructor
      · intro h; exact absurd h (by decide)
      · intro h
        rcases h with h | h
        · have := (lookup_isSome_iff targetPatterns s).mpr h
          rw [hl] at this
          exact absurd this (by decide)
        · exact absurd h hp

/-- C3 counterexample: the header `"Constructor"` normalizes to
`"constructor"`, which is not one of the eleven alias strings, yet the
bracket lookup finds the inherited `Object.prototype.constructor`, which
is not undefined, so the program marks the column `isTarget = true` —
refuting the claimed iff. -/
theorem constructorHeader_isTarget :
    findTargetColumns ["Constructor"] =
      [⟨"Constructor", "constructor", true,
        some (.protoMember "constructor"), 0⟩] ∧
    "constructor" ∉ specAliases := by
  refine ⟨by decide, by decide⟩

/-- C3 amended: in every mapping produced by `findTargetColumns`,
`isTarget` is true exactly when the normalized name is one of the eleven
alias strings of the five target column types or the name of a property
inherited from `Object.prototype` (after normalization — lowercasing and
separator stripping — `"constructor"` is the only inherited name still
reachable, since the others contain capital letters or underscores);
an empty normalized name is never a target. -/
theorem findTargetColumns_isTarget_iff_alias_or_proto
    (headers : List String) (m : ColumnMapping)
    (hm : m ∈ findTargetColumns headers) :
    (m.isTarget = true ↔
      (m.normalizedName ∈ specAliases ∨
        m.normalizedName ∈ objectProtoMemberNames)) ∧
    (m.normalizedName = "" → m.isTarget = false) := by
  simp only [findTargetColumns, List.mem_map] at hm
  obtain ⟨p, _, rfl⟩ := hm
  refine ⟨?_, ?_⟩
  · rw [specAliases_eq_keys]
    exact getTargetPattern_isSome_iff (normalizeColumnName p.2)
  · intro h
    show (getTargetPattern (normalizeColumnName p.2)).isSome = false
    simp only at h
    rw [h]
    decide

/-- Witness for C3 at a concrete header list. -/
theorem findTargetColumns_isTarget_iff_alias_or_proto_witness :
    ((⟨"First_Name", "firstname", true, some (.target .FirstName), 0⟩ :
        ColumnMapping).isTarget = true ↔
      ((⟨"First_Name", "firstname", true, some (.target .FirstName), 0⟩ :
        ColumnMapping).normalizedName ∈ specAliases ∨
       (⟨"First_Name", "firstname", true, some (.target .FirstName), 0⟩ :
        ColumnMapping).normalizedName ∈ objectProtoMemberNames)) ∧
    ((⟨"First_Name", "firstname", true, some (.target .FirstName), 0⟩ :
        ColumnMapping).normalizedName = "" →
      (⟨"First_Name", "firstname", true, some (.target .FirstName), 0⟩ :
        ColumnMapping).isTarget = false) :=
  findTargetColumns_isTarget_iff_alias_or_proto ["First_Name"] _ (by decide)

/-! ## Claim C7 -/

/-- C7: `generateDownloadFilename` splits the original name on its last
dot (no dot: the whole name is the stem, no extension) and produces
exactly `stem_YYYY-MM-DD_encrypted.ext`; in particular
`generateDownloadFilename "my.data.xlsx" (2025-10-02)` is
`"my.data_2025-10-02_encrypted.xlsx"`. -/
theorem generateDownloadFilename_splits_on_last_dot :
    (∀ (name : String) (y mo d : Nat), '.' ∉ name.data →
      generateDownloadFilename name y mo d =
        name ++ "_" ++ fmtDate y mo d ++ "_encrypted") ∧
    (∀ (stem ext : String) (y mo d : Nat), '.' ∉ ext.data →
      generateDownloadFilename (stem ++ "." ++ ext) y mo d =
        stem ++ "_" ++ fmtDate y mo d ++ "_encrypted" ++ "." ++ ext) ∧
    generateDownloadFilename "my.data.xlsx" 2025 10 2 =
      "my.data_2025-10-02_encrypted.xlsx" := by
  refine ⟨?_, ?_, by decide⟩
  · intro name y mo d h
    simp [generateDownloadFilename, lastDotIdx_eq_none h]
  · intro stem ext y mo d h
    have hdata : (stem ++ "." ++ ext).data = stem.data ++ '.' :: ext.data := by
      simp [String.data_append]
    have hidx : lastDotIdx (stem.data ++ '.' :: ext.data) =
        some stem.data.length := lastDotIdx_append _ _ h
    apply String.ext
    simp [generateDownloadFilename, hidx, hdata, String.data_append,
      List.take_left, List.drop_left]

/-- Witness for C7 at concrete inputs. -/
theorem generateDownloadFilename_splits_on_last_dot_witness :
    generateDownloadFilename "report" 2024 1 5 =
      "report_2024-01-05_encrypted" :=
  generateDownloadFilename_splits_on_last_dot.1 "report" 2024 1 5 (by decide)

/-! ## Claim C8 -/

/-- A string of exactly 64 lowercase hexadecimal characters
(the pattern `^[0-9a-f]x7b64x7d$`, braces escaped). -/
def isHex64 (s : String) : Bool :=
  s.data.length == 64 && s.data.all (fun c => decide (c ∈ hexChars))

theorem hexDigit_mem (n : Nat) : hexDigit n ∈ hexChars := by
  unfold hexDigit
  rw [List.getD_eq_getElem?_getD]
  rcases h : hexChars[n]? with _ | c
  · simp; decide
  · simp [List.getElem?_mem h]

theorem hexFlatten_length (bs : List Nat) :
    ((bs.map byteHex).flatten).length = 2 * bs.length := by
  induction bs with
  | nil => simp
  | cons b rest ih => simp [byteHex, ih]; omega

theorem sha256Bytes_length (msg : List Nat) : (sha256Bytes msg).length = 32 := by
  simp [sha256Bytes, wordBytes]

theorem bytesToHex_isHex64 (bs : List Nat) (h : bs.length = 32) :
    isHex64 (bytesToHex bs) = true := by
  have hlen : (bytesToHex bs).data.length = 64 := by
    show ((bs.map byteHex).flatten).length = 64
    rw [hexFlatten_length, h]
  unfold isHex64
  rw [hlen]
  refine (Bool.and_eq_true _ _).mpr ⟨rfl, ?_⟩
  rw [List.all_eq_true]
  intro c hc
  show decide (c ∈ hexChars) = true
  rw [decide_eq_true_eq]
  have hc2 : c ∈ (bs.map byteHex).flatten := hc
  rw [List.mem_flatten] at hc2
  obtain ⟨l, hl, hcl⟩ := hc2
  rw [List.mem_map] at hl
  obtain ⟨b, _, rfl⟩ := hl
  simp only [byteHex, List.mem_cons, List.not_mem_nil, or_false] at hcl
  rcases hcl with rfl | rfl
  · exact hexDigit_mem _
  · exact hexDigit_mem _

/-- C8: every non-null result of `hashValue` is the lowercase hexadecimal
rendering of the 32-byte SHA-256 digest of the UTF-8 encoding of the
normalized input: exactly 64 characters drawn from `0-9a-f`. -/
theorem hashValue_digest_hex64 (s : String) :
    Option.all isHex64 (hashValue s) = true := by
  unfold hashValue
  by_cases h : jsToLower (jsTrim s) = ""
  · simp [h, Option.all]
  · simp only [h, if_false]
    exact bytesToHex_isHex64 _ (sha256Bytes_length _)

/-- `hashValue` does return digests (non-vacuity of the hex property). -/
theorem hashValue_returns_digests : (hashValue "a").isSome = true := rfl

/-! ## The chunked loop is the sequential row-major traversal -/

theorem processRows_append (total : Nat) (m : List ColumnMapping)
    (l1 l2 : List (List CellValue)) (st : LoopState) :
    processRows total m (l1 ++ l2) st =
      ((processRows total m l1 st).1 ++
        (processRows total m l2 (processRows total m l1 st).2).1,
       (processRows total m l2 (processRows total m l1 st).2).2) := by
  induction l1 generalizing st with
  | nil => simp [processRows]
  | cons r rest ih => simp [processRows, ih]

theorem processChunkedAux_eq (k total : Nat) (m : List ColumnMapping) :
    ∀ (fuel : Nat) (rows : List (List CellValue)) (st : LoopState),
      rows.length ≤ fuel →
      processChunkedAux k total m fuel rows st = processRows total m rows st := by
  intro fuel
  induction fuel with
  | zero =>
    intro rows st h
    cases rows with
    | nil => rfl
    | cons r rest => simp at h
  | succ f ih =>
    intro rows st h
    cases rows with
    | nil => rfl
    | cons r rest =>
      simp only [processChunkedAux]
      rw [ih _ _ (by simp only [List.length_drop, List.length_cons] at h ⊢; omega)]
      conv_rhs => rw [← List.take_append_drop (k + 1) (r :: rest)]
      rw [processRows_append]

theorem processChunked_eq (k total : Nat) (m : List ColumnMapping)
    (rows : List (List CellValue)) (st : LoopState) :
    processChunked k total m rows st = processRows total m rows st :=
  processChunkedAux_eq k total m rows.length rows st (Nat.le_refl _)

/-! ## Claim C9 -/

/-- C9: the encryption pass is deterministic and visits rows and columns
in a fixed left-to-right, top-to-bottom order: the chunked traversal
coincides with the plain sequential row-major traversal for every chunk
size, so any two runs over identical parsed tables and column mappings
(with any chunk sizes) produce identical processed rows, statistics and
progress sequences. -/
theorem encryption_pass_deterministic_order :
    (∀ (k total : Nat) (m : List ColumnMapping)
       (rows : List (List CellValue)) (st : LoopState),
      processChunked k total m rows st = processRows total m rows st) ∧
    (∀ (k1 k2 : Nat) (rows : List (List CellValue))
       (m : List ColumnMapping) (genOk : Bool),
      handleEncryptChunked k1 rows m genOk =
        handleEncryptChunked k2 rows m genOk) := by
  refine ⟨processChunked_eq, ?_⟩
  intro k1 k2 rows m genOk
  simp [handleEncryptChunked, processChunked_eq]

/-! ## Progress sequence characterization -/

/-- Number of target mappings, the column factor of `totalCells`. -/
def targetCount (ms : List ColumnMapping) : Nat :=
  (ms.filter (·.isTarget)).length

theorem processRow_state (total : Nat) (ms : List ColumnMapping)
    (row : List CellValue) (st : LoopState) :
    (processRow total ms row st).2.processed = st.processed + targetCount ms ∧
    (processRow total ms row st).2.progress =
      st.progress ++ (List.range' (st.processed + 1) (targetCount ms)).map
        (fun p => roundPct p total) := by
  induction ms generalizing row st with
  | nil => simp [processRow, targetCount]
  | cons m rest ih =>
    by_cases hm : m.isTarget
    · have hc : targetCount (m :: rest) = targetCount rest + 1 := by
        simp [targetCount, List.filter, hm]
      simp only [processRow, encryptCell, if_pos hm]
      constructor
      · rw [(ih _ _).1]; simp [hc]; omega
      · rw [(ih _ _).2]
        simp only [hc, List.range'_succ, List.map_cons]
        simp [List.append_assoc]
    · have hc : targetCount (m :: rest) = targetCount rest := by
        simp [targetCount, List.filter, hm]
      simp only [processRow, encryptCell, if_neg hm]
      rw [hc]
      exact ih row st

theorem processRows_state (total : Nat) (m : List ColumnMapping)
    (rows : List (List CellValue)) (st : LoopState) :
    (processRows total m rows st).2.processed =
      st.processed + rows.length * targetCount m ∧
    (processRows total m rows st).2.progress =
      st.progress ++
        (List.range' (st.processed + 1) (rows.length * targetCount m)).map
          (fun p => roundPct p total) := by
  induction rows generalizing st with
  | nil => simp [processRows]
  | cons r rest ih =>
    simp only [processRows]
    obtain ⟨h1, h2⟩ := processRow_state total m r st
    constructor
    · rw [(ih _).1, h1]
      simp [List.length_cons]
      ring
    · rw [(ih _).2, h2, h1]
      rw [List.append_assoc, ← List.map_append]
      have harr : List.range' (st.processed + 1) (targetCount m) ++
          List.range' (st.processed + targetCount m + 1) (rest.length * targetCount m) =
          List.range' (st.processed + 1) ((rest.length + 1) * targetCount m) := by
        have := List.range'_append (st.processed + 1) (targetCount m)
          (rest.length * targetCount m) 1
        simp only [one_mul] at this
        rw [show st.processed + 1 + targetCount m =
          st.processed + targetCount m + 1 by omega] at this
        rw [this]
        congr 1
        ring
      rw [harr]
      simp [List.length_cons]

theorem roundPct_le_100 (p t : Nat) (h1 : p ≤ t) (h2 : 0 < t) :
    roundPct p t ≤ 100 := by
  unfold roundPct
  have hle : (200 * p + t) / (2 * t) ≤ (201 * t) / (2 * t) :=
    Nat.div_le_div_right (by omega)
  have heq : (201 * t) / (2 * t) = 100 := by
    rw [show 201 * t = t + 2 * t * 100 by ring]
    rw [Nat.add_mul_div_left _ _ (by omega)]
    rw [Nat.div_eq_of_lt (by omega)]
  omega

theorem roundPct_mono (t : Nat) {p q : Nat} (h : p ≤ q) :
    roundPct p t ≤ roundPct q t :=
  Nat.div_le_div_right (by omega)

theorem chain_le_map_range' (f : Nat → Nat) (hf : ∀ n, f n ≤ f (n + 1)) :
    ∀ (n s : Nat), List.Chain' (· ≤ ·) ((List.range' s n).map f) := by
  intro n
  induction n with
  | zero => simp
  | succ n ih =>
    intro s
    rw [List.range'_succ, List.map_cons]
    rw [List.chain'_cons']
    refine ⟨?_, ih (s + 1)⟩
    intro y hy
    cases n with
    | zero => simp at hy
    | succ n2 =>
      rw [List.range'_succ, List.map_cons] at hy
      simp only [List.head?_cons, Option.mem_def, Option.some.injEq] at hy
      rw [← hy]
      exact hf s

theorem handleEncrypt_progress_eq (rows : List (List CellValue))
    (m : List ColumnMapping) (genOk : Bool) :
    (handleEncrypt rows m genOk).progress =
      (0 :: (List.range' 1 (rows.length * targetCount m)).map
          (fun p => roundPct p (rows.length * targetCount m))) ++
        (if genOk then [100] else []) := by
  have h := (processRows_state (rows.length * targetCount m) m rows ⟨0, 0, []⟩).2
  simp only [targetCount] at h
  simp only [List.nil_append] at h
  cases genOk <;>
    simp [handleEncrypt, handleEncryptChunked, processChunked_eq, h, targetCount]

/-! ## Claim C6 (amended part) -/

/-- C6 amended: every value passed to the progress callback lies in
[0,100] and the sequence is monotonically non-decreasing; on successful
completion (including a zero-row table) it ends at exactly 100.  The
converse direction of the original claim is refuted separately: 100 can
also be reached by a run that fails afterwards during file generation. -/
theorem progress_monotone_bounded (rows : List (List CellValue))
    (m : List ColumnMapping) (genOk : Bool) :
    (∀ v ∈ (handleEncrypt rows m genOk).progress, v ≤ 100) ∧
    List.Chain' (· ≤ ·) (handleEncrypt rows m genOk).progress ∧
    (genOk = true →
      (handleEncrypt rows m genOk).progress.getLast? = some 100) := by
  have hmem : ∀ v ∈ (0 :: (List.range' 1 (rows.length * targetCount m)).map
      (fun p => roundPct p (rows.length * targetCount m))), v ≤ 100 := by
    intro v hv
    rw [List.mem_cons] at hv
    rcases hv with rfl | hv
    · omega
    · rw [List.mem_map] at hv
      obtain ⟨p, hp, rfl⟩ := hv
      rw [List.mem_range'] at hp
      obtain ⟨i, hi, rfl⟩ := hp
      exact roundPct_le_100 _ _ (by omega) (by omega)
  have hchain : List.Chain' (· ≤ ·)
      (0 :: (List.range' 1 (rows.length * targetCount m)).map
        (fun p => roundPct p (rows.length * targetCount m))) := by
    rw [List.chain'_cons']
    exact ⟨fun y _ => Nat.zero_le y,
      chain_le_map_range' _ (fun n => roundPct_mono _ (Nat.le_succ n)) _ 1⟩
  cases genOk with
  | false =>
    rw [handleEncrypt_progress_eq, if_neg Bool.false_ne_true, List.append_nil]
    refine ⟨hmem, hchain, ?_⟩
    intro hg
    exact absurd hg Bool.false_ne_true
  | true =>
    rw [handleEncrypt_progress_eq, if_pos rfl]
    refine ⟨?_, ?_, fun _ => List.getLast?_concat _⟩
    · intro v hv
      rw [List.mem_append] at hv
      rcases hv with hv | hv
      · exact hmem v hv
      · rw [List.mem_singleton] at hv
        omega
    · rw [List.chain'_append]
      refine ⟨hchain, by simp, ?_⟩
      intro x hx y hy
      rw [List.head?_cons, Option.mem_def, Option.some.injEq] at hy
      have hx2 := List.mem_of_mem_getLast? hx
      have := hmem x hx2
      omega

/-- Witness for C6 at a concrete successful run. -/
theorem progress_monotone_bounded_witness :
    (handleEncrypt [[CellValue.str "x"]] (findTargetColumns ["Email"])
      true).progress.getLast? = some 100 :=
  (progress_monotone_bounded [[CellValue.str "x"]]
    (findTargetColumns ["Email"]) true).2.2 rfl

/-- C6 counterexample: a run that fails during file generation has still
passed the value 100 to the progress callback, so reaching 100 does not
imply successful completion. -/
theorem progress_reaches_100_on_failed_run :
    (handleEncrypt [[CellValue.str "a"]] (findTargetColumns ["Email"])
      false).errored = true ∧
    (handleEncrypt [[CellValue.str "a"]] (findTargetColumns ["Email"])
      false).downloaded = false ∧
    100 ∈ (handleEncrypt [[CellValue.str "a"]] (findTargetColumns ["Email"])
      false).progress := by
  refine ⟨rfl, rfl, by decide⟩

/-! ## Frame lemmas: which cells a run can change -/

theorem encryptCell_frame (total : Nat) (m : ColumnMapping)
    (row : List CellValue) (st : LoopState) (col : Nat)
    (h : m.isTarget = true → m.columnIndex ≠ col) :
    ((encryptCell total m row st).1).getD col CellValue.undef = row.getD col CellValue.undef := by
  unfold encryptCell
  by_cases hm : m.isTarget
  · rw [if_pos hm]
    simp only
    split
    · rw [List.getD_eq_getElem?_getD, List.getD_eq_getElem?_getD,
        List.getElem?_set_ne (h hm), List.getD_eq_getElem?_getD]
    · rfl
  · rw [if_neg hm]

theorem processRow_frame (total : Nat) (ms : List ColumnMapping)
    (row : List CellValue) (st : LoopState) (col : Nat)
    (h : ∀ m ∈ ms, m.isTarget = true → m.columnIndex ≠ col) :
    ((processRow total ms row st).1).getD col CellValue.undef = row.getD col CellValue.undef := by
  induction ms generalizing row st with
  | nil => rfl
  | cons m rest ih =>
    simp only [processRow]
    rw [ih _ _ (fun x hx => h x (List.mem_cons_of_mem m hx))]
    exact encryptCell_frame total m row st col (h m (List.mem_cons_self m rest))

theorem processRows_frame (total : Nat) (ms : List ColumnMapping)
    (rows : List (List CellValue)) (st : LoopState) (col j : Nat)
    (h : ∀ m ∈ ms, m.isTarget = true → m.columnIndex ≠ col) :
    cellAt (processRows total ms rows st).1 j col = cellAt rows j col := by
  induction rows generalizing st j with
  | nil => rfl
  | cons r rest ih =>
    simp only [processRows]
    cases j with
    | zero =>
      show ((processRow total ms r st).1).getD col CellValue.undef = r.getD col CellValue.undef
      exact processRow_frame total ms r st col h
    | succ j2 =>
      show cellAt (processRows total ms rest _).1 j2 col = cellAt rest j2 col
      exact ih _ _

/-! ## Shape of changed cells -/

theorem encryptCell_shape (total : Nat) (m : ColumnMapping)
    (row : List CellValue) (st : LoopState) (col : Nat) :
    ((encryptCell total m row st).1).getD col CellValue.undef = row.getD col CellValue.undef ∨
    (∃ s, ((encryptCell total m row st).1).getD col CellValue.undef =
        CellValue.str s) ∨
    ((encryptCell total m row st).1).getD col CellValue.undef = CellValue.null := by
  unfold encryptCell
  by_cases hm : m.isTarget
  · rw [if_pos hm]
    simp only
    split
    · by_cases hcol : m.columnIndex = col
      · subst hcol
        by_cases hlen : m.columnIndex < row.length
        · rw [List.getD_eq_getElem?_getD, List.getElem?_set_self hlen]
          cases hh : hashValue (cellToString (row.getD m.columnIndex CellValue.undef)) with
          | none => right; right; simp [hashResultCell, hh]
          | some d => right; left; exact ⟨d, by simp [hashResultCell, hh]⟩
        · left
          rw [List.getD_eq_getElem?_getD, List.getD_eq_getElem?_getD,
            List.set_eq_of_length_le (by omega)]
      · left
        rw [List.getD_eq_getElem?_getD, List.getD_eq_getElem?_getD,
          List.getElem?_set_ne hcol, List.getD_eq_getElem?_getD]
    · left; rfl
  · rw [if_neg hm]; left; rfl

theorem processRow_shape (total : Nat) (ms : List ColumnMapping)
    (row : List CellValue) (st : LoopState) (col : Nat) :
    ((processRow total ms row st).1).getD col CellValue.undef = row.getD col CellValue.undef ∨
    (∃ s, ((processRow total ms row st).1).getD col CellValue.undef =
        CellValue.str s) ∨
    ((processRow total ms row st).1).getD col CellValue.undef = CellValue.null := by
  induction ms generalizing row st with
  | nil => left; rfl
  | cons m rest ih =>
    simp only [processRow]
    rcases ih (encryptCell total m row st).1 (encryptCell total m row st).2 with
      h1 | h1 | h1
    · rw [h1]
      exact encryptCell_shape total m row st col
    · right; left; exact h1
    · right; right; exact h1

theorem processRows_shape (total : Nat) (ms : List ColumnMapping)
    (rows : List (List CellValue)) (st : LoopState) (j col : Nat) :
    cellAt (processRows total ms rows st).1 j col = cellAt rows j col ∨
    (∃ s, cellAt (processRows total ms rows st).1 j col = CellValue.str s) ∨
    cellAt (processRows total ms rows st).1 j col = CellValue.null := by
  induction rows generalizing st j with
  | nil => left; rfl
  | cons r rest ih =>
    simp only [processRows]
    cases j with
    | zero => exact processRow_shape total ms r st col
    | succ j2 => exact ih _ _

/-! ## Claim C4 (amended part) -/

/-- C4 amended: cells in columns that are no target column's index pass
through with identical type and value; every other cell is either
unchanged or has been overwritten with the result of `hashValue` — a
digest string, or null — regardless of its original type (numbers and
booleans in target columns are stringified and hashed, refuted
separately by the counterexample). -/
theorem nonTargetColumns_pass_through (rows : List (List CellValue))
    (mappings : List ColumnMapping) (genOk : Bool) (col : Nat)
    (h : ∀ m ∈ mappings, m.isTarget = true → m.columnIndex ≠ col) :
    (∀ j, cellAt (handleEncrypt rows mappings genOk).outRows j col =
      cellAt rows j col) ∧
    (∀ j c2, cellAt (handleEncrypt rows mappings genOk).outRows j c2 =
        cellAt rows j c2 ∨
      (∃ s, cellAt (handleEncrypt rows mappings genOk).outRows j c2 =
        CellValue.str s) ∨
      cellAt (handleEncrypt rows mappings genOk).outRows j c2 =
        CellValue.null) := by
  have hout : (handleEncrypt rows mappings genOk).outRows =
      (processRows (rows.length * targetCount mappings) mappings rows
        ⟨0, 0, []⟩).1 := by
    cases genOk <;>
      simp [handleEncrypt, handleEncryptChunked, processChunked_eq, targetCount]
  rw [hout]
  exact ⟨fun j => processRows_frame _ _ _ _ _ _ h,
    fun j c2 => processRows_shape _ _ _ _ _ _⟩

/-- Witness for C4 at a concrete run: the non-target column keeps its
numeric cell. -/
theorem nonTargetColumns_pass_through_witness :
    cellAt (handleEncrypt [[CellValue.str "x", CellValue.num 7]]
      (findTargetColumns ["Email", "Dept"]) true).outRows 0 1 =
      cellAt [[CellValue.str "x", CellValue.num 7]] 0 1 :=
  (nonTargetColumns_pass_through [[CellValue.str "x", CellValue.num 7]]
    (findTargetColumns ["Email", "Dept"]) true 1 (by decide)).1 0

/-- C4 counterexample: a Number cell in a target column is converted to
its digest string, so a cell other than a String cell does change type. -/
theorem targetColumn_number_retyped :
    cellAt [[CellValue.num 42]] 0 0 = CellValue.num 42 ∧
    (∃ s, cellAt (handleEncrypt [[CellValue.num 42]]
      (findTargetColumns ["Phone"]) true).outRows 0 0 = CellValue.str s) :=
  ⟨rfl, _, rfl⟩

/-! ## Claim C10: the run writes through the shared row arrays -/

theorem getD_append_len (pre : List (List CellValue)) (x : List CellValue)
    (l : List (List CellValue)) :
    (pre ++ x :: l).getD pre.length [] = x := by
  induction pre with
  | nil => rfl
  | cons p rest ih => exact ih

theorem set_append_len (pre : List (List CellValue)) (x : List CellValue)
    (l : List (List CellValue)) (v : List CellValue) :
    (pre ++ x :: l).set pre.length v = pre ++ v :: l := by
  induction pre with
  | nil => rfl
  | cons p rest ih => simp [List.set_cons_succ, ih]

theorem processRefs_pre (total : Nat) (m : List ColumnMapping) :
    ∀ (rows pre : List (List CellValue)) (st : LoopState),
      processRefs total m (List.range' pre.length rows.length) (pre ++ rows) st =
        (pre ++ (processRows total m rows st).1,
         (processRows total m rows st).2) := by
  intro rows
  induction rows with
  | nil => intro pre st; simp [processRefs, processRows]
  | cons r rest ih =>
    intro pre st
    rw [List.length_cons, List.range'_succ]
    simp only [processRefs, getD_append_len, set_append_len]
    have hlen : pre.length + 1 = (pre ++ [(processRow total m r st).1]).length := by
      simp
    rw [hlen]
    have hsplit : pre ++ (processRow total m r st).1 :: rest =
        (pre ++ [(processRow total m r st).1]) ++ rest := by
      simp
    rw [hsplit, ih]
    simp [processRows]

/-- C10: `[...parsedData.rows]` copies only the outer array, so the run
writes each digest through the shared row arrays: viewing the caller's
original row references (`0, 1, …, n-1`) in the final store yields
exactly the processed output rows, for successful and failed runs alike —
the original parsed table holds the written values. -/
theorem inPlaceWrites_visible_through_original_refs
    (rows : List (List CellValue)) (mappings : List ColumnMapping)
    (genOk : Bool) :
    (processRefs (rows.length * targetCount mappings) mappings
      (List.range rows.length) rows ⟨0, 0, []⟩).1 =
      (handleEncrypt rows mappings genOk).outRows := by
  have h := processRefs_pre (rows.length * targetCount mappings) mappings
    rows [] ⟨0, 0, []⟩
  simp only [List.nil_append, List.length_nil] at h
  rw [← List.range_eq_range'] at h
  rw [h]
  cases genOk <;>
    simp [handleEncrypt, handleEncryptChunked, processChunked_eq, targetCount]

/-! ## Claim C5 (amended part) -/

/-- C5 amended: when generation, serialization or download throws, the
run aborts: no file download is triggered, the statistics record is not
populated, and the app enters the error state — but the in-place writes
of the loop are not rolled back: the caller-visible rows are the fully
processed rows, not the pre-run contents. -/
theorem failureRun_no_output_no_stats (rows : List (List CellValue))
    (mappings : List ColumnMapping) :
    (handleEncrypt rows mappings false).downloaded = false ∧
    (handleEncrypt rows mappings false).stats = none ∧
    (handleEncrypt rows mappings false).errored = true ∧
    (handleEncrypt rows mappings false).outRows =
      (processRows (rows.length * targetCount mappings) mappings rows
        ⟨0, 0, []⟩).1 := by
  refine ⟨rfl, rfl, rfl, ?_⟩
  simp [handleEncrypt, handleEncryptChunked, processChunked_eq, targetCount]

/-- C5 counterexample: after a failed run the caller-visible table
differs from its pre-run contents — the write into the target cell
(here: a whitespace-only cell overwritten with null) persists. -/
theorem failureRun_mutation_persists :
    (handleEncrypt [[CellValue.str " "]] (findTargetColumns ["LastName"])
      false).errored = true ∧
    (handleEncrypt [[CellValue.str " "]] (findTargetColumns ["LastName"])
      false).stats = none ∧
    (processRefs 1 (findTargetColumns ["LastName"]) (List.range 1)
      [[CellValue.str " "]] ⟨0, 0, []⟩).1 ≠ [[CellValue.str " "]] := by
  refine ⟨rfl, rfl, by decide⟩

/-! ## Claim C1: the cell guard of the loop -/

/-- C1, evaluated at the failing input: a whitespace-only string cell in
a target column passes the `cellValue !== ''` guard, `hashValue`
normalizes it to the empty string and returns null, and the loop writes
that null into the cell and counts it as encrypted: the cell is not left
as it was, and the only counters kept are `totalRows` and
`encryptedCells` — no `emptyCellsSkipped` counter exists. -/
theorem whitespaceCell_overwrittenWithNull :
    (handleEncrypt [[CellValue.str "   "]] (findTargetColumns ["FirstName"])
      true).outRows = [[CellValue.null]] ∧
    (handleEncrypt [[CellValue.str "   "]] (findTargetColumns ["FirstName"])
      true).stats = some ⟨1, 1⟩ := by
  refine ⟨by decide, by decide⟩
